import Mathlib

/-!
Verification of the card layout and composition engine of the x-video-maker
repository (`app.py`, `render_text.py`) against its natural-language
specification.  Python source constructs are shallowly embedded:

* Python `int` arithmetic is modelled by `ℤ`; Python `/` (true division)
  by `ℚ`; `int(x)` (truncation toward zero) by `pyTrunc`; Python `//`
  (floor division) by `Int.fdiv`; Python `%` with a positive right operand
  by `%` on `ℤ` (`Int.emod`), which agrees with Python's sign convention
  for positive divisors.
* Pure string processing (`clean_tweet_text`, `wrap_text`) is embedded as
  functions on `List Char` / `String`.
* The effectful video-assembly path is embedded as a state-and-exception
  semantics over an abstract filesystem recording which job files exist.
-/

/-- Python `int(q)` on a rational: truncation toward zero. -/
def pyTrunc (q : ℚ) : ℤ := if 0 ≤ q then ⌊q⌋ else ⌈q⌉

namespace App

/-! ### Layout constants (app.py lines 117-120) -/

def OUTPUT_W : ℤ := 1080

def OUTPUT_H : ℤ := 1920

def CARD_MARGIN_X : ℤ := 36

def TOP_SAFE_MARGIN : ℤ := 180

/-! ### Layout calculator (app.py lines 187, 207-228, inside
`create_video_with_banner`).  Inputs: `th` is the card image height
returned by the rasterizer (`text_img_h`), `w`/`h` are the probed source
video dimensions (`orig_w`/`orig_h`). -/

/-- `card_w = OUTPUT_W - (CARD_MARGIN_X * 2)` (line 187). -/
def card_w : ℤ := OUTPUT_W - CARD_MARGIN_X * 2

/-- `max_text_h = OUTPUT_H // 2` (line 207). -/
def max_text_h : ℤ := OUTPUT_H.fdiv 2

/-- `text_area_h = min(text_img_h, max_text_h)` (line 208). -/
def text_area_h (th : ℤ) : ℤ := min th max_text_h

/-- `vid_max_w = card_w` (line 209). -/
def vid_max_w : ℤ := card_w

/-- `vid_max_h` (lines 210-211): available height, floored at 200. -/
def vid_max_h (th : ℤ) : ℤ :=
  max (OUTPUT_H - TOP_SAFE_MARGIN - text_area_h th - 4 - CARD_MARGIN_X * 2) 200

/-- `scale_f = min(vid_max_w / orig_w, vid_max_h / orig_h)` (line 213);
Python `/` is true division, modelled in `ℚ`. -/
def scale_f (th w h : ℤ) : ℚ :=
  min ((vid_max_w : ℚ) / (w : ℚ)) ((vid_max_h th : ℚ) / (h : ℚ))

/-- `vid_w = int(orig_w * scale_f)` (line 214). -/
def vid_w_raw (th w h : ℤ) : ℤ := pyTrunc ((w : ℚ) * scale_f th w h)

/-- `vid_h = int(orig_h * scale_f)` (line 215). -/
def vid_h_raw (th w h : ℤ) : ℤ := pyTrunc ((h : ℚ) * scale_f th w h)

/-- `max(v - v % 2, 2)` (lines 216-217): round down to even, floor at 2. -/
def evenClamp (n : ℤ) : ℤ := max (n - n % 2) 2

/-- `vid_w = max(vid_w - vid_w % 2, 2)` (line 216). -/
def vid_w (th w h : ℤ) : ℤ := evenClamp (vid_w_raw th w h)

/-- `vid_h = max(vid_h - vid_h % 2, 2)` (line 217). -/
def vid_h (th w h : ℤ) : ℤ := evenClamp (vid_h_raw th w h)

/-- `card_h = text_area_h + 2 + vid_h` (line 219). -/
def card_h (th w h : ℤ) : ℤ := text_area_h th + 2 + vid_h th w h

/-- `card_y` (lines 220-221): vertical centering below the top safe margin,
clamped at 0; Python `//` is floor division (`Int.fdiv`). -/
def card_y (th w h : ℤ) : ℤ :=
  max (TOP_SAFE_MARGIN +
    (OUTPUT_H - TOP_SAFE_MARGIN - card_h th w h - CARD_MARGIN_X).fdiv 2) 0

/-- `card_x = CARD_MARGIN_X` (line 222). -/
def card_x : ℤ := CARD_MARGIN_X

/-- `sep_y = card_y + text_area_h` (line 226). -/
def sep_y (th w h : ℤ) : ℤ := card_y th w h + text_area_h th

/-- `vid_x = card_x + (card_w - vid_w) // 2` (line 227). -/
def vid_x (th w h : ℤ) : ℤ := card_x + (card_w - vid_w th w h).fdiv 2

/-- `vid_y = sep_y + 2` (line 228). -/
def vid_y (th w h : ℤ) : ℤ := sep_y th w h + 2

/-! ### Bounds on the layout quantities -/

end App

namespace RenderText

/-! ### Card rasterizer height computation (render_text.py, `render`,
lines 83-98).  The CoreText measurement `bounding.size.height` is an
external float; it enters the embedding as the parameter `bounding_h`.
All other contributions are the source's integer constants. -/

/-- `padding_x = 48` (line 83). -/
def padding_x : ℤ := 48

/-- `padding_y = 48` (line 90). -/
def padding_y : ℤ := 48

/-- `avatar_size = 140` (line 92). -/
def avatar_size : ℤ := 140

/-- `profile_section_h = avatar_size + 36` when a profile with a truthy
`display_name` is present, else 0 (lines 91, 94-95). -/
def profile_section_h (hasProfile : Bool) : ℤ :=
  if hasProfile then avatar_size + 36 else 0

/-- `img_h = int(bounding.size.height + padding_y * 2 + profile_section_h + 10)`
(line 98); Python `int()` truncates toward zero. -/
def img_h (bounding_h : ℚ) (hasProfile : Bool) : ℤ :=
  pyTrunc (bounding_h + (padding_y : ℚ) * 2 + (profile_section_h hasProfile : ℚ) + 10)

/-- Modelled from the spec: the claimed card-image height formula
`padding_top + profile_block_height + line_count * line_height + padding_bottom`
with the Scenario A paddings of 44px each (spec section 4.2 and Scenario A);
the operands are integers, so the claimed round-up is the identity. -/
def specImgHeight (line_count line_height profile_block_h : ℤ) : ℤ :=
  44 + profile_block_h + line_count * line_height + 44

end RenderText

namespace App

/-! ### Profile handling and body font size (app.py lines 191-201 and
560-576). -/

/-- The profile record built by `process_tweet` (lines 563-576). -/
structure Profile where
  display_name : String
  handle : String
  avatar_path : Option String

/-- `has_profile = profile and profile.get("display_name")` (line 191):
Python truthiness, true exactly when a profile is supplied and its
`display_name` is a non-empty string. -/
def has_profile : Option Profile → Bool
  | none => false
  | some p => p.display_name != ""

/-- `"font_size": 48 if has_profile else 42` (line 194). -/
def font_size (profile : Option Profile) : ℤ :=
  if has_profile profile then 48 else 42

/-! ### Audio detection and the final encode command (app.py lines
292-318). -/

/-- Substring test on character lists, modelling Python's `in` on strings. -/
def hasSubstr (pat : List Char) : List Char → Bool
  | [] => pat.isEmpty
  | c :: cs => pat.isPrefixOf (c :: cs) || hasSubstr pat cs

/-- `has_audio = '"index"' in probe_audio.stdout` (lines 293-298): a prior
ffprobe of the source selects audio streams and prints their indexes; the
source has a confirmed audio stream exactly when the probe output contains
the substring `"index"`. -/
def audio_probe_has_audio (probe_stdout : String) : Bool :=
  hasSubstr "\"index\"".data probe_stdout.data

/-- The audio options appended at lines 307-308, exactly when `has_audio`. -/
def audio_args (has_audio : Bool) : List String :=
  if has_audio then ["-map", "0:a", "-c:a", "aac", "-b:a", "128k"] else []

/-- The final encode command (lines 300-318).  The input paths, filter
graph string and formatted duration are parameters. -/
def main_ffmpeg_cmd (input_video bg_vid_path output_path fc dur : String)
    (has_audio : Bool) : List String :=
  ["ffmpeg", "-y", "-hide_banner",
   "-i", input_video,
   "-i", bg_vid_path,
   "-filter_complex", fc,
   "-map", "[out]"]
  ++ audio_args has_audio
  ++ ["-t", dur, "-r", "30",
      "-c:v", "libx264",
      "-preset", "fast",
      "-crf", "20",
      "-pix_fmt", "yuv420p",
      "-movflags", "+faststart",
      output_path]

/-! ### Exit paths of the video assembly step (app.py lines 153-167,
170-351, 516-614).  The effectful pipeline is embedded as a function from
an abstract filesystem (the set of job-scoped files) to a result plus the
filesystem left behind; outcomes of the external tools (render
subprocess, ffmpeg invocations, yt-dlp) are parameters.  `try/finally`
blocks become explicit sequencing of the cleanup after the body's result
is known, exactly as Python runs them on both normal and exceptional
exits. -/

/-- The files a single job can create. -/
inductive JobFile where
  | configJson
  | textPng
  | bgVid
  | rawVideo
  | avatarPng
  | outputVideo
deriving DecidableEq

/-- The abstract filesystem: the list of job files currently existing. -/
abbrev FS := List JobFile

/-- Creating a file (tempfile.mkstemp, or a tool writing its output). -/
def fsCreate (f : JobFile) (s : FS) : FS := if f ∈ s then s else s ++ [f]

/-- `Path(p).unlink(missing_ok=True)`. -/
def fsUnlink (f : JobFile) (s : FS) : FS := s.erase f

/-- Outcomes of the external tools, as seen by the Python code. -/
structure ExtEnv where
  /-- the render_text.py subprocess exits 0 within its timeout (line 161) -/
  renderOk : Bool
  /-- the rendered PNG exists and is non-empty (line 204) -/
  pngNonEmpty : Bool
  /-- the background-reference ffmpeg exits 0 (line 283) -/
  bgEncodeOk : Bool
  /-- the final ffmpeg exits 0 within its timeout (lines 329-330) -/
  mainEncodeOk : Bool
  /-- a failing final ffmpeg left a (partial) file at `output_path` -/
  mainWrotePartial : Bool
  /-- yt-dlp download of the raw video succeeds (line 580) -/
  downloadOk : Bool
  /-- a profile picture was uploaded and saved (lines 567-576) -/
  hasAvatar : Bool
deriving DecidableEq

/-- A step result: `.ok` for normal return, `.error` for a raised
exception propagating out. -/
def isOkB : Except String Unit → Bool
  | .ok _ => true
  | .error _ => false

/-- `render_text_to_png` (lines 153-167): creates the config JSON
(mkstemp, line 155), runs the render subprocess (line 160), raises on a
nonzero exit (line 162), and unlinks the config JSON in `finally`
(line 167). -/
def render_text_to_png_fs (renderOk : Bool) (s : FS) : Except String Unit × FS :=
  let s1 := fsCreate .configJson s
  let r : Except String Unit := if renderOk then .ok () else .error "Text render error"
  (r, fsUnlink .configJson s1)

/-- `create_video_with_banner` (lines 170-351), restricted to its file
effects: mkstemp of the card PNG (line 189), rendering, the PNG sanity
check (lines 204-205), mkstemp of the background reference video
(line 257), the background encode (lines 259-284), the final encode
(lines 329-345, which writes `output_path` fully on success or possibly
partially on failure), and the two `finally` unlinks of the background
video (line 347) and the card PNG (line 349).  Nothing unlinks
`output_path`. -/
def create_video_with_banner_fs (env : ExtEnv) (s : FS) : Except String Unit × FS :=
  let s := fsCreate .textPng s
  let body :=
    match render_text_to_png_fs env.renderOk s with
    | (Except.error e, s) => ((Except.error e : Except String Unit), s)
    | (Except.ok _, s) =>
      if !env.pngNonEmpty then (.error "Text PNG not created", s)
      else
        let s := fsCreate .bgVid s
        let body2 :=
          if !env.bgEncodeOk then ((.error "BG video error" : Except String Unit), s)
          else
            let s := if env.mainEncodeOk || env.mainWrotePartial
                     then fsCreate .outputVideo s else s
            if env.mainEncodeOk then (.ok (), s)
            else (.error "FFmpeg_DIAG", s)
        (body2.1, fsUnlink .bgVid body2.2)
  (body.1, fsUnlink .textPng body.2)

/-- `process_tweet` (lines 516-614), from the point where the job's
files come into existence: the cropped avatar (lines 567-576), the raw
video download (lines 578-582, whose failure path returns early without
any cleanup), the assembly call (line 586), and the `finally` cleanup of
the raw video and avatar (lines 604-607). -/
def process_tweet_fs (env : ExtEnv) (s : FS) : Except String Unit × FS :=
  let s := if env.hasAvatar then fsCreate .avatarPng s else s
  let s := fsCreate .rawVideo s
  if !env.downloadOk then (.error "download", s)
  else
    let r := create_video_with_banner_fs env s
    let s2 := fsUnlink .rawVideo r.2
    let s3 := if env.hasAvatar then fsUnlink .avatarPng s2 else s2
    (r.1, s3)

/-- The environment in which the final encode fails (nonzero exit or
timeout) after having written a partial file at the output path. -/
def envMainFails : ExtEnv :=
  { renderOk := true, pngNonEmpty := true, bgEncodeOk := true,
    mainEncodeOk := false, mainWrotePartial := true,
    downloadOk := true, hasAvatar := false }

/-! ### Text wrapper (`wrap_text`, app.py lines 141-150).

`wrap_text` splits on explicit newlines, runs Python's `textwrap.wrap`
(default options) on each non-blank paragraph, keeps `""` for blank
paragraphs, and returns `"\n".join(lines[:8])`.  `textwrap.wrap` with
default options is embedded below: whitespace replacement, splitting
into maximal space / non-space chunks, the greedy fill loop, the
long-word breaking of `break_long_words=True`, and the whitespace
dropping of `drop_whitespace=True`.  Two CPython details are collapsed,
neither observable for the claims settled here: tab expansion is folded
into whitespace replacement, and the hyphen-aware refinements of
`break_on_hyphens` (extra chunk boundaries and break points at hyphens)
are elided. -/

/-- The characters of Python's `string.whitespace` (ASCII). -/
def isSpaceChar (c : Char) : Bool :=
  c == ' ' || c == '\t' || c == '\n' || c == '\x0b' || c == '\x0c' || c == '\r'

/-- Python `str.split("\n")`. -/
def splitNl : List Char → List (List Char)
  | [] => [[]]
  | c :: cs =>
    let r := splitNl cs
    if c = '\n' then [] :: r
    else
      match r with
      | [] => [[c]]
      | h :: t => (c :: h) :: t

/-- Python `str.strip()` (ASCII whitespace). -/
def pyStrip (l : List Char) : List Char :=
  ((l.dropWhile isSpaceChar).reverse.dropWhile isSpaceChar).reverse

/-- textwrap `_munge_whitespace`: every whitespace character becomes a
space. -/
def mungeWs (l : List Char) : List Char :=
  l.map (fun c => if isSpaceChar c then ' ' else c)

/-- One step of splitting into maximal runs of spaces / non-spaces. -/
def addChunkChar (c : Char) : List (List Char) → List (List Char)
  | [] => [[c]]
  | ch :: rest =>
    match ch with
    | [] => [c] :: rest
    | d :: _ =>
      if isSpaceChar c == isSpaceChar d then (c :: ch) :: rest
      else [c] :: ch :: rest

/-- textwrap `_split` (simplified as documented above): the list of
maximal space / non-space runs, in order. -/
def toChunks (l : List Char) : List (List Char) := l.foldr addChunkChar []

/-- Total character count of a chunk list. -/
def sumLen (cs : List (List Char)) : Nat := (cs.map List.length).sum

/-- A chunk is whitespace in the sense of Python `chunk.strip() == ''`. -/
def isWsChunk (ch : List Char) : Bool := ch.all isSpaceChar

/-- The inner greedy loop of `_wrap_chunks`: append chunks to the current
line while `cur_len + len(chunk) <= width`; returns the line's chunks and
the remaining chunks. -/
def fillLine (width : Nat) : Nat → List (List Char) → List (List Char) × List (List Char)
  | _, [] => ([], [])
  | curLen, ch :: rest =>
    if curLen + ch.length ≤ width then
      let pr := fillLine width (curLen + ch.length) rest
      (ch :: pr.1, pr.2)
    else ([], ch :: rest)

/-- textwrap `_handle_long_word` with `break_long_words=True`: when the
next chunk is wider than `width`, move its first `space_left` characters
onto the current line (`space_left = 1` if `width < 1`). -/
def handleLong (width : Nat) (pr : List (List Char) × List (List Char)) :
    List (List Char) × List (List Char) :=
  match pr.2 with
  | r0 :: rrest =>
    if width < r0.length then
      let spaceLeft := if width < 1 then 1 else width - sumLen pr.1
      (pr.1 ++ [r0.take spaceLeft], r0.drop spaceLeft :: rrest)
    else pr
  | [] => pr

/-- `drop_whitespace`: delete the last chunk of the line if it is
whitespace. -/
def dropLastWs (cs : List (List Char)) : List (List Char) :=
  match cs.getLast? with
  | some lastc => if isWsChunk lastc then cs.dropLast else cs
  | none => cs

/-- One iteration of the outer `while chunks` loop of `_wrap_chunks`:
optionally drop a leading whitespace chunk (only once at least one line
has been emitted), fill the line greedily, break a long word, drop a
trailing whitespace chunk, and emit the line if non-empty.  Returns the
emitted line (if any) and the remaining chunks. -/
def lineStep (width : Nat) (emitted : Bool) (chunks : List (List Char)) :
    Option (List Char) × List (List Char) :=
  match chunks with
  | [] => (none, [])
  | c0 :: rest0 =>
    let chunks1 := if emitted && isWsChunk c0 then rest0 else c0 :: rest0
    let st2 := handleLong width (fillLine width 0 chunks1)
    let cur3 := dropLastWs st2.1
    ((if cur3.isEmpty then none else some cur3.flatten), st2.2)

/-- The decreasing measure of the outer loop: every `lineStep` on a
non-empty chunk list strictly decreases it (`lineStep_measure`). -/
def wrapMeasure (cs : List (List Char)) : Nat := 2 * sumLen cs + cs.length

/-- The outer `while chunks` loop, with fuel.  `textwrapWrap` supplies
`wrapMeasure chunks + 1` fuel, which by `lineStep_measure` is never
exhausted (`wrapGo_fuel_stable`), so the `fuel = 0` branch is dead. -/
def wrapGo (width : Nat) : Nat → Bool → List (List Char) → List (List Char)
  | 0, _, _ => []
  | fuel + 1, emitted, chunks =>
    match chunks with
    | [] => []
    | c0 :: rest0 =>
      let st := lineStep width emitted (c0 :: rest0)
      match st.1 with
      | some line => line :: wrapGo width fuel true st.2
      | none => wrapGo width fuel emitted st.2

/-- Python `textwrap.wrap(para, width)` with default options. -/
def textwrapWrap (width : Nat) (para : String) : List String :=
  let chunks := toChunks (mungeWs para.data)
  (wrapGo width (wrapMeasure chunks + 1) false chunks).map String.mk

/-- The `lines` list built by `wrap_text` (lines 143-149) before the
`[:8]` cap: wrapped chunks of each non-blank paragraph, `""` for each
blank paragraph, in order. -/
def wrap_text_lines_uncapped (text : String) (maxChars : Nat) : List String :=
  ((splitNl text.data).map (fun p =>
    if (pyStrip p).isEmpty then [""] else textwrapWrap maxChars (String.mk p))).flatten

/-- The lines actually returned by `wrap_text` (line 150): `lines[:8]`. -/
def wrap_text_lines (text : String) (maxChars : Nat) : List String :=
  (wrap_text_lines_uncapped text maxChars).take 8

/-- `wrap_text` (lines 141-150): `"\n".join(lines[:8])`. -/
def wrap_text (text : String) (maxChars : Nat) : String :=
  String.intercalate "\n" (wrap_text_lines text maxChars)

/-! ### Properties of the wrapper -/

/-! ### Text cleaning (`clean_tweet_text`, app.py lines 123-128).

The two `re.sub(pattern, "", text)` calls use patterns of the shape
`LITERAL-ALTERNATIVES` followed by `\S+`: `https?://\S+` (the alternation
of the literals `https://` and `http://`, which are mutually exclusive at
any position) and `pic\.twitter\.com/\S+`.  `re.sub` scans left to right,
replaces each non-overlapping match with the empty string, and resumes
scanning after the removed text; a match is a literal prefix followed by
a maximal non-empty run of non-whitespace characters. -/

/-- Length of the maximal leading run of non-whitespace characters
(what `\S+` consumes from this position, when non-zero). -/
def takeNonSpaceLen : List Char → Nat
  | [] => 0
  | c :: cs => if isSpaceChar c then 0 else 1 + takeNonSpaceLen cs

/-- Length of the regex match at the head of `l`, if any: the first
literal alternative that is a prefix of `l` and is followed by at least
one non-whitespace character, plus the maximal non-space run after it. -/
def matchLen : List (List Char) → List Char → Option Nat
  | [], _ => none
  | p :: ps, l =>
    if p <+: l ∧ 0 < takeNonSpaceLen (l.drop p.length)
    then some (p.length + takeNonSpaceLen (l.drop p.length))
    else matchLen ps l

/-- A well-formed literal-alternative list: non-empty literals made of
non-whitespace characters. -/
def validPres (pres : List (List Char)) : Prop :=
  ∀ p ∈ pres, p ≠ [] ∧ ∀ c ∈ p, isSpaceChar c = false

/-- The global substitution `re.sub(pattern, "", ...)`: scan left to
right; at a match, delete it and resume after it; otherwise keep the
character and continue. -/
def subPattern (pres : List (List Char)) : List Char → List Char
  | [] => []
  | c :: cs =>
    match h : matchLen pres (c :: cs) with
    | some k => subPattern pres (List.drop k (c :: cs))
    | none => c :: subPattern pres cs
termination_by l => l.length
decreasing_by
  · have hk : 0 < k := by
      induction pres with
      | nil => simp [matchLen] at h
      | cons p ps ih =>
        unfold matchLen at h
        split at h
        · simp only [Option.some.injEq] at h
          omega
        · exact ih h
    simp only [List.length_drop]
    simp only [List.length_cons]
    omega
  · simp

/-- No position of `l` starts a match. -/
def noMatchB (pres : List (List Char)) : List Char → Bool
  | [] => true
  | c :: cs => (matchLen pres (c :: cs)).isNone && noMatchB pres cs

/-- Python `"\n".join(lines)`. -/
def joinNl : List (List Char) → List Char
  | [] => []
  | l :: rest =>
    match rest with
    | [] => l
    | _ :: _ => l ++ '\n' :: joinNl rest

/-- The literal alternatives of the regex `https?://` (line 125).  The
two literals are mutually exclusive at any position (they differ at
index 4), so first-prefix-match semantics coincides with the regex's
backtracking alternation. -/
def httpPrefixes : List (List Char) := ["https://".data, "http://".data]

/-- The literal head of the regex `pic\.twitter\.com/` (line 126). -/
def picPrefixes : List (List Char) := ["pic.twitter.com/".data]

/-- The list of lines built by `clean_tweet_text` at line 127:
`[line.strip() for line in text.strip().split("\n") if line.strip()]`
applied after the two URL substitutions of lines 125-126. -/
def cleanLines (text : String) : List (List Char) :=
  let t1 := subPattern httpPrefixes text.data
  let t2 := subPattern picPrefixes t1
  ((splitNl (pyStrip t2)).map pyStrip).filter (fun l => !l.isEmpty)

/-- `clean_tweet_text` (app.py lines 123-128): strip URLs and
`pic.twitter.com` tokens, strip each line, drop blank lines, rejoin. -/
def clean_tweet_text (text : String) : String :=
  String.mk (joinNl (cleanLines text))

end App


theorem pyTrunc_of_nonneg {q : ℚ} (h : 0 ≤ q) : pyTrunc q = ⌊q⌋ := by
  simp [pyTrunc, h]

namespace App

theorem text_area_h_bounds {th : ℤ} (hth : 0 ≤ th) :
    0 ≤ text_area_h th ∧ text_area_h th ≤ 960 := by
  unfold text_area_h max_text_h OUTPUT_H
  rw [Int.fdiv_eq_ediv _ (by norm_num)]
  omega

/-- With `text_area_h ≤ 960` the available height is at least 704, so the
200px floor in line 211 never activates. -/
theorem vid_max_h_eq {th : ℤ} (hth : 0 ≤ th) :
    vid_max_h th = 1664 - text_area_h th := by
  have h1 := text_area_h_bounds hth
  unfold vid_max_h OUTPUT_H TOP_SAFE_MARGIN CARD_MARGIN_X
  omega

theorem vid_max_h_bounds {th : ℤ} (hth : 0 ≤ th) :
    704 ≤ vid_max_h th ∧ vid_max_h th ≤ 1664 := by
  have h1 := text_area_h_bounds hth
  rw [vid_max_h_eq hth]
  omega

theorem scale_f_nonneg {th w h : ℤ} (hth : 0 ≤ th) (hw : 0 < w) (hh : 0 < h) :
    0 ≤ scale_f th w h := by
  have h1 := vid_max_h_bounds hth
  unfold scale_f vid_max_w card_w OUTPUT_W CARD_MARGIN_X
  have hwq : (0 : ℚ) < (w : ℚ) := by exact_mod_cast hw
  have hhq : (0 : ℚ) < (h : ℚ) := by exact_mod_cast hh
  have hvq : (0 : ℚ) ≤ ((vid_max_h th : ℤ) : ℚ) := by
    exact_mod_cast le_trans (by norm_num) h1.1
  refine le_min (div_nonneg (by norm_num) (le_of_lt hwq)) (div_nonneg hvq (le_of_lt hhq))

theorem vid_w_raw_bounds {th w h : ℤ} (hth : 0 ≤ th) (hw : 0 < w) (hh : 0 < h) :
    0 ≤ vid_w_raw th w h ∧ vid_w_raw th w h ≤ 1008 := by
  have hs := scale_f_nonneg hth hw hh
  have hwq : (0 : ℚ) < (w : ℚ) := by exact_mod_cast hw
  have hq : (0 : ℚ) ≤ (w : ℚ) * scale_f th w h :=
    mul_nonneg (le_of_lt hwq) hs
  have hub : (w : ℚ) * scale_f th w h ≤ 1008 := by
    have hle : scale_f th w h ≤ (vid_max_w : ℚ) / (w : ℚ) := min_le_left _ _
    have := mul_le_mul_of_nonneg_left hle (le_of_lt hwq)
    have hcan : (w : ℚ) * ((vid_max_w : ℚ) / (w : ℚ)) = (vid_max_w : ℚ) := by
      field_simp
    rw [hcan] at this
    simpa [vid_max_w, card_w, OUTPUT_W, CARD_MARGIN_X] using this
  unfold vid_w_raw
  rw [pyTrunc_of_nonneg hq]
  constructor
  · exact Int.floor_nonneg.mpr hq
  · have := Int.floor_le_floor hub
    simpa using this

theorem vid_h_raw_bounds {th w h : ℤ} (hth : 0 ≤ th) (hw : 0 < w) (hh : 0 < h) :
    0 ≤ vid_h_raw th w h ∧ vid_h_raw th w h ≤ vid_max_h th := by
  have hs := scale_f_nonneg hth hw hh
  have hhq : (0 : ℚ) < (h : ℚ) := by exact_mod_cast hh
  have hq : (0 : ℚ) ≤ (h : ℚ) * scale_f th w h :=
    mul_nonneg (le_of_lt hhq) hs
  have hub : (h : ℚ) * scale_f th w h ≤ ((vid_max_h th : ℤ) : ℚ) := by
    have hle : scale_f th w h ≤ ((vid_max_h th : ℤ) : ℚ) / (h : ℚ) := min_le_right _ _
    have := mul_le_mul_of_nonneg_left hle (le_of_lt hhq)
    have hcan : (h : ℚ) * (((vid_max_h th : ℤ) : ℚ) / (h : ℚ)) = ((vid_max_h th : ℤ) : ℚ) := by
      field_simp
    rw [hcan] at this
    exact this
  unfold vid_h_raw
  rw [pyTrunc_of_nonneg hq]
  constructor
  · exact Int.floor_nonneg.mpr hq
  · have := Int.floor_le_floor hub
    simpa using this

theorem evenClamp_bounds {n B : ℤ} (hn : n ≤ B) (hB : 2 ≤ B) :
    2 ≤ evenClamp n ∧ evenClamp n ≤ B ∧ 2 ∣ evenClamp n := by
  unfold evenClamp
  omega

theorem vid_w_bounds {th w h : ℤ} (hth : 0 ≤ th) (hw : 0 < w) (hh : 0 < h) :
    2 ≤ vid_w th w h ∧ vid_w th w h ≤ card_w ∧ 2 ∣ vid_w th w h := by
  have h1 := vid_w_raw_bounds hth hw hh
  have h2 := evenClamp_bounds h1.2 (by norm_num)
  unfold vid_w
  unfold card_w OUTPUT_W CARD_MARGIN_X
  exact ⟨h2.1, by omega, h2.2.2⟩

theorem vid_h_bounds {th w h : ℤ} (hth : 0 ≤ th) (hw : 0 < w) (hh : 0 < h) :
    2 ≤ vid_h th w h ∧ vid_h th w h ≤ vid_max_h th ∧ 2 ∣ vid_h th w h := by
  have h1 := vid_h_raw_bounds hth hw hh
  have hB : 2 ≤ vid_max_h th := le_trans (by norm_num) (vid_max_h_bounds hth).1
  have h2 := evenClamp_bounds h1.2 hB
  exact ⟨h2.1, h2.2.1, h2.2.2⟩

theorem card_h_bounds {th w h : ℤ} (hth : 0 ≤ th) (hw : 0 < w) (hh : 0 < h) :
    4 ≤ card_h th w h ∧ card_h th w h ≤ 1666 := by
  have h1 := vid_h_bounds hth hw hh
  have h2 := text_area_h_bounds hth
  have h3 := vid_max_h_eq hth
  unfold card_h
  omega

theorem card_y_bounds {th w h : ℤ} (hth : 0 ≤ th) (hw : 0 < w) (hh : 0 < h) :
    180 ≤ card_y th w h ∧ card_y th w h + card_h th w h ≤ 1920 := by
  have h1 := card_h_bounds hth hw hh
  unfold card_y OUTPUT_H TOP_SAFE_MARGIN CARD_MARGIN_X
  rw [Int.fdiv_eq_ediv _ (by norm_num)]
  omega

/-- Claim C1: for every card image height and positive source video
dimensions, the video rectangle lies entirely within the card rectangle,
and the card rectangle lies within the 1080x1920 canvas reduced by the
180px top safe margin (`card_y ≥ 180` and `card_y + card_h ≤ 1920`).
In this code the 200px video-height floor can never force an overflow
(`text_area_h ≤ 960` keeps the available height at least 704), so the
containment holds unconditionally. -/
theorem video_rect_in_card_rect_in_canvas (th w h : ℤ)
    (hth : 0 ≤ th) (hw : 0 < w) (hh : 0 < h) :
    card_x ≤ vid_x th w h ∧
    vid_x th w h + vid_w th w h ≤ card_x + card_w ∧
    card_y th w h ≤ vid_y th w h ∧
    vid_y th w h + vid_h th w h ≤ card_y th w h + card_h th w h ∧
    TOP_SAFE_MARGIN ≤ card_y th w h ∧
    card_y th w h + card_h th w h ≤ OUTPUT_H ∧
    0 ≤ card_x ∧ card_x + card_w ≤ OUTPUT_W := by
  have hvw := vid_w_bounds hth hw hh
  have hvh := vid_h_bounds hth hw hh
  have hta := text_area_h_bounds hth
  have hcy := card_y_bounds hth hw hh
  refine ⟨?_, ?_, ?_, ?_, ?_, ?_, ?_, ?_⟩
  · unfold vid_x card_x card_w OUTPUT_W CARD_MARGIN_X at *
    rw [Int.fdiv_eq_ediv _ (by norm_num)]
    omega
  · unfold vid_x card_x card_w OUTPUT_W CARD_MARGIN_X at *
    rw [Int.fdiv_eq_ediv _ (by norm_num)]
    omega
  · unfold vid_y sep_y
    omega
  · unfold vid_y sep_y card_h
    omega
  · unfold TOP_SAFE_MARGIN
    exact hcy.1
  · unfold OUTPUT_H
    exact hcy.2
  · unfold card_x CARD_MARGIN_X
    norm_num
  · unfold card_x card_w OUTPUT_W CARD_MARGIN_X
    norm_num

/-- Witness for C1 at a concrete input: card image height 200, source
video 1920x1080. -/
theorem video_rect_in_card_rect_in_canvas_witness :
    card_x ≤ vid_x 200 1920 1080 ∧
    vid_x 200 1920 1080 + vid_w 200 1920 1080 ≤ card_x + card_w ∧
    card_y 200 1920 1080 ≤ vid_y 200 1920 1080 ∧
    vid_y 200 1920 1080 + vid_h 200 1920 1080 ≤
      card_y 200 1920 1080 + card_h 200 1920 1080 ∧
    TOP_SAFE_MARGIN ≤ card_y 200 1920 1080 ∧
    card_y 200 1920 1080 + card_h 200 1920 1080 ≤ OUTPUT_H ∧
    0 ≤ card_x ∧ card_x + card_w ≤ OUTPUT_W :=
  video_rect_in_card_rect_in_canvas 200 1920 1080 (by norm_num) (by norm_num)
    (by norm_num)

/-- Claim C2: the layout uses the uniform scale factor
`min(card_w / orig_w, vid_max_h / orig_h)` and produces even video
dimensions at least 2, obtained by rounding the scaled dimension down to
the nearest even integer (`v - v % 2`, the largest even integer not
exceeding `v`) and flooring at 2. -/
theorem scaled_video_dims_even_and_floored (th w h : ℤ)
    (hth : 0 ≤ th) (hw : 0 < w) (hh : 0 < h) :
    scale_f th w h = min ((card_w : ℚ) / (w : ℚ)) ((vid_max_h th : ℚ) / (h : ℚ)) ∧
    2 ∣ vid_w th w h ∧ 2 ∣ vid_h th w h ∧
    2 ≤ vid_w th w h ∧ 2 ≤ vid_h th w h ∧
    vid_w th w h = max (vid_w_raw th w h - vid_w_raw th w h % 2) 2 ∧
    vid_h th w h = max (vid_h_raw th w h - vid_h_raw th w h % 2) 2 ∧
    2 ∣ (vid_w_raw th w h - vid_w_raw th w h % 2) ∧
    vid_w_raw th w h - vid_w_raw th w h % 2 ≤ vid_w_raw th w h ∧
    vid_w_raw th w h < (vid_w_raw th w h - vid_w_raw th w h % 2) + 2 ∧
    2 ∣ (vid_h_raw th w h - vid_h_raw th w h % 2) ∧
    vid_h_raw th w h - vid_h_raw th w h % 2 ≤ vid_h_raw th w h ∧
    vid_h_raw th w h < (vid_h_raw th w h - vid_h_raw th w h % 2) + 2 := by
  have hvw := vid_w_bounds hth hw hh
  have hvh := vid_h_bounds hth hw hh
  refine ⟨rfl, hvw.2.2, hvh.2.2, hvw.1, hvh.1, rfl, rfl, ?_, ?_, ?_, ?_, ?_, ?_⟩ <;> omega

/-- Witness for C2 at a concrete input: card image height 200, source
video 1920x1080. -/
theorem scaled_video_dims_even_and_floored_witness :
    scale_f 200 1920 1080 =
      min ((card_w : ℚ) / ((1920 : ℤ) : ℚ)) ((vid_max_h 200 : ℚ) / ((1080 : ℤ) : ℚ)) ∧
    2 ∣ vid_w 200 1920 1080 ∧ 2 ∣ vid_h 200 1920 1080 ∧
    2 ≤ vid_w 200 1920 1080 ∧ 2 ≤ vid_h 200 1920 1080 ∧
    vid_w 200 1920 1080 = max (vid_w_raw 200 1920 1080 - vid_w_raw 200 1920 1080 % 2) 2 ∧
    vid_h 200 1920 1080 = max (vid_h_raw 200 1920 1080 - vid_h_raw 200 1920 1080 % 2) 2 ∧
    2 ∣ (vid_w_raw 200 1920 1080 - vid_w_raw 200 1920 1080 % 2) ∧
    vid_w_raw 200 1920 1080 - vid_w_raw 200 1920 1080 % 2 ≤ vid_w_raw 200 1920 1080 ∧
    vid_w_raw 200 1920 1080 < (vid_w_raw 200 1920 1080 - vid_w_raw 200 1920 1080 % 2) + 2 ∧
    2 ∣ (vid_h_raw 200 1920 1080 - vid_h_raw 200 1920 1080 % 2) ∧
    vid_h_raw 200 1920 1080 - vid_h_raw 200 1920 1080 % 2 ≤ vid_h_raw 200 1920 1080 ∧
    vid_h_raw 200 1920 1080 < (vid_h_raw 200 1920 1080 - vid_h_raw 200 1920 1080 % 2) + 2 :=
  scaled_video_dims_even_and_floored 200 1920 1080 (by norm_num) (by norm_num)
    (by norm_num)

end App

namespace RenderText

/-- Claim C3 counterexample: for the Scenario A single-line no-profile input,
take the spec's own line height for font size 42,
`line_height = 42 + round(42 * 0.45) = 61`, and identify the measured text
block height with `1 * line_height`.  The code computes
`int(61 + 48*2 + 0 + 10) = 167`, but the claimed formula gives
`44 + 0 + 1*61 + 44 = 149`: the code adds paddings of 48 (not 44) plus an
extra constant 10, so the claimed formula (with no other additive term)
does not hold. -/
theorem img_h_formula_counterexample :
    img_h 61 false = 167 ∧ specImgHeight 1 61 0 = 149 ∧
    img_h 61 false ≠ specImgHeight 1 61 0 := by
  have h1 : img_h 61 false = 167 := by
    unfold img_h profile_section_h padding_y
    rw [pyTrunc_of_nonneg (by norm_num)]
    norm_num
  refine ⟨h1, by norm_num [specImgHeight], by rw [h1]; norm_num [specImgHeight]⟩

/-- Claim C3 (amended): the final card image height equals the measured
text bounding height plus `48 + 48` of vertical padding, plus the profile
block height (`140 + 36` when a profile is present, 0 otherwise), plus a
constant extra 10, truncated down to an integer (not rounded up):
`img_h = floor(bounding_h) + 106` without a profile and
`floor(bounding_h) + 282` with one, the difference of exactly 176 being
the profile header block. -/
theorem img_h_formula (bounding_h : ℚ) (hb : 0 ≤ bounding_h) :
    img_h bounding_h false = ⌊bounding_h⌋ + 106 ∧
    img_h bounding_h true = ⌊bounding_h⌋ + 282 ∧
    img_h bounding_h true = img_h bounding_h false + 176 := by
  have key : ∀ hp : Bool, ∀ c : ℤ,
      (profile_section_h hp : ℚ) = (c : ℚ) →
      img_h bounding_h hp = ⌊bounding_h⌋ + 106 + c := by
    intro hp c hc
    unfold img_h
    have h0 : (0 : ℚ) ≤ bounding_h + (padding_y : ℚ) * 2 + (profile_section_h hp : ℚ) + 10 := by
      have hcnn : (0 : ℤ) ≤ profile_section_h hp := by
        cases hp <;> simp [profile_section_h, avatar_size]
      have hcq : (0 : ℚ) ≤ (profile_section_h hp : ℚ) := by exact_mod_cast hcnn
      have hpq : (padding_y : ℚ) = 48 := by norm_num [padding_y]
      rw [hpq]
      linarith
    rw [pyTrunc_of_nonneg h0]
    have harg : bounding_h + (padding_y : ℚ) * 2 + (profile_section_h hp : ℚ) + 10
        = bounding_h + ((106 + c : ℤ) : ℚ) := by
      rw [hc]
      have hpq : (padding_y : ℚ) = 48 := by norm_num [padding_y]
      rw [hpq]
      push_cast
      ring
    rw [harg, Int.floor_add_int]
    ring
  have e1 := key false 0 (by norm_num [profile_section_h])
  have e2 := key true 176 (by norm_num [profile_section_h, avatar_size])
  refine ⟨by rw [e1]; ring, by rw [e2]; ring, by rw [e1, e2]; ring⟩

/-- Witness for the amended C3 at the concrete bounding height 61. -/
theorem img_h_formula_witness :
    img_h 61 false = ⌊(61 : ℚ)⌋ + 106 ∧
    img_h 61 true = ⌊(61 : ℚ)⌋ + 282 ∧
    img_h 61 true = img_h 61 false + 176 :=
  img_h_formula 61 (by norm_num)

end RenderText

namespace App

/-- Claim C9: the body font size passed to the rasterizer is 48 exactly
when a profile with a non-empty `display_name` is supplied and 42
otherwise, so profile presence changes the body text size. -/
theorem font_size_depends_on_profile (p : Option Profile) (pr : Profile) :
    (font_size p = 48 ↔ has_profile p = true) ∧
    (font_size p = 42 ↔ has_profile p = false) ∧
    has_profile none = false ∧
    font_size none = 42 ∧
    has_profile (some pr) = (pr.display_name != "") ∧
    font_size (some pr) = (if pr.display_name = "" then 42 else 48) := by
  refine ⟨?_, ?_, rfl, rfl, rfl, ?_⟩
  · unfold font_size
    cases h : has_profile p <;> simp
  · unfold font_size
    cases h : has_profile p <;> simp
  · unfold font_size has_profile
    by_cases h : pr.display_name = "" <;> simp [h]

/-- Claim C6: the final encode command contains the audio mapping and
transcode options (`-map 0:a`, `-c:a aac`) if and only if the prior
ffprobe of the source confirmed an audio stream; with no confirmed audio
stream, all audio mapping flags are omitted.  The hypotheses state that
the caller-supplied path/filter/duration strings are not themselves the
literal audio tokens. -/
theorem audio_flags_iff_probe_confirms (iv bg out fc dur probe : String)
    (h0 : "0:a" ∉ [iv, bg, out, fc, dur])
    (h1 : "aac" ∉ [iv, bg, out, fc, dur])
    (h2 : "-c:a" ∉ [iv, bg, out, fc, dur]) :
    (("0:a" ∈ main_ffmpeg_cmd iv bg out fc dur (audio_probe_has_audio probe) ∧
      "-c:a" ∈ main_ffmpeg_cmd iv bg out fc dur (audio_probe_has_audio probe) ∧
      "aac" ∈ main_ffmpeg_cmd iv bg out fc dur (audio_probe_has_audio probe)) ↔
      audio_probe_has_audio probe = true) ∧
    (audio_probe_has_audio probe = false →
      "0:a" ∉ main_ffmpeg_cmd iv bg out fc dur (audio_probe_has_audio probe) ∧
      "-c:a" ∉ main_ffmpeg_cmd iv bg out fc dur (audio_probe_has_audio probe) ∧
      "aac" ∉ main_ffmpeg_cmd iv bg out fc dur (audio_probe_has_audio probe)) ∧
    (audio_probe_has_audio probe = true →
      ["-map", "0:a", "-c:a", "aac", "-b:a", "128k"] <:+:
        main_ffmpeg_cmd iv bg out fc dur (audio_probe_has_audio probe)) := by
  simp only [List.mem_cons, List.not_mem_nil, or_false, not_or] at h0 h1 h2
  obtain ⟨h0a, h0b, h0c, h0d, h0e⟩ := h0
  obtain ⟨h1a, h1b, h1c, h1d, h1e⟩ := h1
  obtain ⟨h2a, h2b, h2c, h2d, h2e⟩ := h2
  cases haud : audio_probe_has_audio probe
  · refine ⟨?_, ?_, ?_⟩
    · constructor
      · rintro ⟨hm, -, -⟩
        simp [main_ffmpeg_cmd, audio_args] at hm
        tauto
      · intro hcontra
        exact absurd hcontra (by simp)
    · intro _
      refine ⟨?_, ?_, ?_⟩ <;> intro hm <;>
        simp [main_ffmpeg_cmd, audio_args] at hm <;> tauto
    · intro hcontra
      exact absurd hcontra (by simp)
  · refine ⟨?_, ?_, ?_⟩
    · constructor
      · intro _; rfl
      · intro _
        refine ⟨?_, ?_, ?_⟩ <;> simp [main_ffmpeg_cmd, audio_args]
    · intro hcontra
      exact absurd hcontra (by simp)
    · intro _
      refine ⟨["ffmpeg", "-y", "-hide_banner", "-i", iv, "-i", bg,
        "-filter_complex", fc, "-map", "[out]"],
        ["-t", dur, "-r", "30", "-c:v", "libx264", "-preset", "fast",
          "-crf", "20", "-pix_fmt", "yuv420p", "-movflags", "+faststart", out], ?_⟩
      simp [main_ffmpeg_cmd, audio_args]

/-- Witness for C6 at concrete inputs: a probe output containing
`"index"` (audio confirmed) and path/filter/duration strings distinct
from the audio tokens. -/
theorem audio_flags_iff_probe_confirms_witness :
    (("0:a" ∈ main_ffmpeg_cmd "raw.mp4" "bg.mp4" "out.mp4" "[1:v]loop=-1[bg]"
        "12.000" (audio_probe_has_audio "streams \"index\": 0") ∧
      "-c:a" ∈ main_ffmpeg_cmd "raw.mp4" "bg.mp4" "out.mp4" "[1:v]loop=-1[bg]"
        "12.000" (audio_probe_has_audio "streams \"index\": 0") ∧
      "aac" ∈ main_ffmpeg_cmd "raw.mp4" "bg.mp4" "out.mp4" "[1:v]loop=-1[bg]"
        "12.000" (audio_probe_has_audio "streams \"index\": 0")) ↔
      audio_probe_has_audio "streams \"index\": 0" = true) ∧
    (audio_probe_has_audio "streams \"index\": 0" = false →
      "0:a" ∉ main_ffmpeg_cmd "raw.mp4" "bg.mp4" "out.mp4" "[1:v]loop=-1[bg]"
        "12.000" (audio_probe_has_audio "streams \"index\": 0") ∧
      "-c:a" ∉ main_ffmpeg_cmd "raw.mp4" "bg.mp4" "out.mp4" "[1:v]loop=-1[bg]"
        "12.000" (audio_probe_has_audio "streams \"index\": 0") ∧
      "aac" ∉ main_ffmpeg_cmd "raw.mp4" "bg.mp4" "out.mp4" "[1:v]loop=-1[bg]"
        "12.000" (audio_probe_has_audio "streams \"index\": 0")) ∧
    (audio_probe_has_audio "streams \"index\": 0" = true →
      ["-map", "0:a", "-c:a", "aac", "-b:a", "128k"] <:+:
        main_ffmpeg_cmd "raw.mp4" "bg.mp4" "out.mp4" "[1:v]loop=-1[bg]"
          "12.000" (audio_probe_has_audio "streams \"index\": 0")) :=
  audio_flags_iff_probe_confirms "raw.mp4" "bg.mp4" "out.mp4" "[1:v]loop=-1[bg]"
    "12.000" "streams \"index\": 0" (by decide) (by decide) (by decide)

/-- Claim C8: on every exit path of the video assembly step, success or
failure, the temporary artifacts it created - the one-frame background
reference video, the rendered card image file, and the render config
JSON - are gone by the time the step returns or propagates its error. -/
theorem assembly_temps_deleted_on_all_exits (env : ExtEnv) :
    JobFile.textPng ∉ (create_video_with_banner_fs env []).2 ∧
    JobFile.bgVid ∉ (create_video_with_banner_fs env []).2 ∧
    JobFile.configJson ∉ (create_video_with_banner_fs env []).2 := by
  rcases env with ⟨r, p, b, m, w, d, a⟩
  cases r <;> cases p <;> cases b <;> cases m <;> cases w <;> cases d <;> cases a <;> decide

/-- Claim C7 counterexample: when the final encoder fails after writing a
partial output file, the job reports failure but the file at the target
output path still exists afterward - nothing in the code unlinks
`output_path` on the failure path. -/
theorem failed_job_leaves_output_counterexample :
    isOkB (process_tweet_fs envMainFails []).1 = false ∧
    JobFile.outputVideo ∈ (process_tweet_fs envMainFails []).2 := by
  decide

/-- Claim C7 (amended): a job that fails during video assembly deletes
all its temporary artifacts (config JSON, card PNG, background reference
video, raw download, avatar), but the target output path is never
removed: after a failure the only file that can remain is the output
file, and it remains exactly when the final encode step was reached and
wrote a (partial) file. -/
theorem failed_assembly_cleanup (env : ExtEnv)
    (hdl : env.downloadOk = true)
    (hfail : isOkB (process_tweet_fs env []).1 = false) :
    (process_tweet_fs env []).2 =
      (if env.renderOk && env.pngNonEmpty && env.bgEncodeOk && env.mainWrotePartial
       then [JobFile.outputVideo] else []) := by
  rcases env with ⟨r, p, b, m, w, d, a⟩
  revert hdl hfail
  cases r <;> cases p <;> cases b <;> cases m <;> cases w <;> cases d <;> cases a <;> decide

/-- Witness for the amended C7 at the concrete failing environment. -/
theorem failed_assembly_cleanup_witness :
    (process_tweet_fs envMainFails []).2 =
      (if envMainFails.renderOk && envMainFails.pngNonEmpty &&
          envMainFails.bgEncodeOk && envMainFails.mainWrotePartial
       then [JobFile.outputVideo] else []) :=
  failed_assembly_cleanup envMainFails (by decide) (by decide)

theorem sumLen_nil : sumLen [] = 0 := rfl

theorem sumLen_cons (ch : List Char) (cs : List (List Char)) :
    sumLen (ch :: cs) = ch.length + sumLen cs := by
  simp [sumLen]

theorem sumLen_append (a b : List (List Char)) :
    sumLen (a ++ b) = sumLen a + sumLen b := by
  simp [sumLen]

theorem wrapMeasure_cons (ch : List Char) (cs : List (List Char)) :
    wrapMeasure (ch :: cs) = 2 * ch.length + 1 + wrapMeasure cs := by
  simp [wrapMeasure, sumLen_cons]
  ring

theorem wrapMeasure_append (a b : List (List Char)) :
    wrapMeasure (a ++ b) = wrapMeasure a + wrapMeasure b := by
  simp [wrapMeasure, sumLen_append]
  ring

theorem fillLine_append (width : Nat) :
    ∀ (cs : List (List Char)) (n : Nat),
      (fillLine width n cs).1 ++ (fillLine width n cs).2 = cs := by
  intro cs
  induction cs with
  | nil => intro n; rfl
  | cons ch rest ih =>
    intro n
    unfold fillLine
    by_cases h : n + ch.length ≤ width
    · simp only [if_pos h]
      simpa using ih (n + ch.length)
    · simp [if_neg h]

theorem fillLine_sumLen (width : Nat) :
    ∀ (cs : List (List Char)) (n : Nat), n ≤ width →
      n + sumLen (fillLine width n cs).1 ≤ width := by
  intro cs
  induction cs with
  | nil => intro n hn; simpa [fillLine, sumLen] using hn
  | cons ch rest ih =>
    intro n hn
    unfold fillLine
    by_cases h : n + ch.length ≤ width
    · simp only [if_pos h]
      have := ih (n + ch.length) h
      simp only [sumLen_cons]
      omega
    · simp [if_neg h, sumLen]
      omega

theorem handleLong_sumLen (width : Nat) (hw : 1 ≤ width)
    (pr : List (List Char) × List (List Char)) (h1 : sumLen pr.1 ≤ width) :
    sumLen (handleLong width pr).1 ≤ width := by
  obtain ⟨a, b⟩ := pr
  cases b with
  | nil => simpa [handleLong] using h1
  | cons r0 rrest =>
    by_cases h : width < r0.length
    · have hnlt : ¬ width < 1 := by omega
      simp only [handleLong, if_pos h, if_neg hnlt]
      simp only [sumLen_append, sumLen_cons, sumLen_nil] at h1 ⊢
      have : (r0.take (width - sumLen a)).length ≤ width - sumLen a := by
        simp [List.length_take]
      simp at h1 ⊢
      omega
    · simpa [handleLong, if_neg h] using h1

theorem sumLen_dropLast_le (cs : List (List Char)) :
    sumLen cs.dropLast ≤ sumLen cs := by
  induction cs with
  | nil => simp [sumLen]
  | cons ch rest ih =>
    cases rest with
    | nil => simp [sumLen]
    | cons r2 rrest =>
      simp only [List.dropLast_cons₂, sumLen_cons] at ih ⊢
      omega

theorem dropLastWs_sumLen_le (cs : List (List Char)) :
    sumLen (dropLastWs cs) ≤ sumLen cs := by
  unfold dropLastWs
  cases h : cs.getLast? with
  | none => exact le_refl _
  | some lastc =>
    by_cases hws : isWsChunk lastc
    · simpa [hws] using sumLen_dropLast_le cs
    · simp [hws]

theorem line_chunks_length (width : Nat) (hw : 1 ≤ width) (C : List (List Char)) :
    (dropLastWs (handleLong width (fillLine width 0 C)).1).flatten.length ≤ width := by
  have hfill : sumLen (fillLine width 0 C).1 ≤ width := by
    have := fillLine_sumLen width C 0 (by omega)
    omega
  have hhl : sumLen (handleLong width (fillLine width 0 C)).1 ≤ width :=
    handleLong_sumLen width hw _ hfill
  have hdrop := dropLastWs_sumLen_le (handleLong width (fillLine width 0 C)).1
  have hflat : (dropLastWs (handleLong width (fillLine width 0 C)).1).flatten.length
      = sumLen (dropLastWs (handleLong width (fillLine width 0 C)).1) := by
    simp [sumLen]
  omega

theorem lineStep_line_length (width : Nat) (hw : 1 ≤ width) (emitted : Bool)
    (chunks : List (List Char)) (l : List Char)
    (h : (lineStep width emitted chunks).1 = some l) : l.length ≤ width := by
  cases chunks with
  | nil => simp [lineStep] at h
  | cons c0 rest0 =>
    by_cases hA : (emitted && isWsChunk c0) = true
    · by_cases hE : (dropLastWs (handleLong width (fillLine width 0 rest0)).1).isEmpty = true
      · simp [lineStep, hA, hE] at h
      · simp [lineStep, hA, hE] at h
        exact h ▸ line_chunks_length width hw rest0
    · by_cases hE :
        (dropLastWs (handleLong width (fillLine width 0 (c0 :: rest0))).1).isEmpty = true
      · simp [lineStep, hA, hE] at h
      · simp [lineStep, hA, hE] at h
        exact h ▸ line_chunks_length width hw (c0 :: rest0)

theorem handleLong_measure_le (width : Nat) (pr : List (List Char) × List (List Char)) :
    wrapMeasure (handleLong width pr).2 ≤ wrapMeasure pr.2 := by
  obtain ⟨a, b⟩ := pr
  cases b with
  | nil => exact le_refl _
  | cons r0 rrest =>
    by_cases h : width < r0.length
    · simp only [handleLong, if_pos h]
      simp only [wrapMeasure_cons, List.length_drop]
      omega
    · simp [handleLong, if_neg h]

theorem handleLong_measure_lt (width : Nat) (r0 : List Char) (rrest : List (List Char))
    (hlong : width < r0.length) :
    wrapMeasure (handleLong width ([], r0 :: rrest)).2 < wrapMeasure (r0 :: rrest) := by
  simp only [handleLong, if_pos hlong]
  have hsl : 1 ≤ (if width < 1 then 1 else width - sumLen ([] : List (List Char))) := by
    by_cases h1 : width < 1
    · simp [h1]
    · simp only [if_neg h1, sumLen_nil]
      omega
  simp only [wrapMeasure_cons, List.length_drop]
  omega

theorem fillLine_fst_nil (width : Nat) (c0 : List Char) (rest : List (List Char))
    (h : ¬ (0 + c0.length ≤ width)) : fillLine width 0 (c0 :: rest) = ([], c0 :: rest) := by
  unfold fillLine
  simp [if_neg h]
  all_goals omega

theorem fillLine_fst_eq_nil (width : Nat) (c0 : List Char) (rest : List (List Char))
    (h : (fillLine width 0 (c0 :: rest)).1 = []) : width < c0.length := by
  by_contra hc
  push_neg at hc
  have hc2 : 0 + c0.length ≤ width := by omega
  unfold fillLine at h
  rw [if_pos hc2] at h
  simp at h

theorem lineStep_snd (width : Nat) (emitted : Bool) (c0 : List Char)
    (rest0 : List (List Char)) :
    (lineStep width emitted (c0 :: rest0)).2
      = (handleLong width (fillLine width 0
          (if emitted && isWsChunk c0 then rest0 else c0 :: rest0))).2 := rfl

/-- Every iteration of the outer wrap loop strictly decreases
`wrapMeasure`: the fuel supplied by `textwrapWrap` is never exhausted. -/
theorem lineStep_measure (width : Nat) (emitted : Bool) (c0 : List Char)
    (rest0 : List (List Char)) :
    wrapMeasure (lineStep width emitted (c0 :: rest0)).2 < wrapMeasure (c0 :: rest0) := by
  rw [lineStep_snd]
  by_cases hA : (emitted && isWsChunk c0) = true
  · rw [if_pos hA]
    have happ := fillLine_append width rest0 0
    have hm : wrapMeasure (fillLine width 0 rest0).1 + wrapMeasure (fillLine width 0 rest0).2
        = wrapMeasure rest0 := by
      rw [← wrapMeasure_append, happ]
    have h2 := handleLong_measure_le width (fillLine width 0 rest0)
    have h3 := wrapMeasure_cons c0 rest0
    omega
  · rw [if_neg hA]
    cases hfst : (fillLine width 0 (c0 :: rest0)).1 with
    | nil =>
      have hlong : width < c0.length := fillLine_fst_eq_nil width c0 rest0 hfst
      have heq : fillLine width 0 (c0 :: rest0) = ([], c0 :: rest0) :=
        fillLine_fst_nil width c0 rest0 (by omega)
      rw [heq]
      exact handleLong_measure_lt width c0 rest0 hlong
    | cons p ps =>
      have happ := fillLine_append width (c0 :: rest0) 0
      have hm : wrapMeasure (fillLine width 0 (c0 :: rest0)).1
          + wrapMeasure (fillLine width 0 (c0 :: rest0)).2 = wrapMeasure (c0 :: rest0) := by
        rw [← wrapMeasure_append, happ]
      have h1 : 1 ≤ wrapMeasure (fillLine width 0 (c0 :: rest0)).1 := by
        rw [hfst]
        rw [wrapMeasure_cons]
        omega
      have h2 := handleLong_measure_le width (fillLine width 0 (c0 :: rest0))
      omega

/-- The result of `wrapGo` does not depend on the fuel once the fuel
exceeds `wrapMeasure`: the fuel chosen in `textwrapWrap` is exact. -/
theorem wrapGo_fuel_stable (width : Nat) :
    ∀ (f g : Nat) (emitted : Bool) (chunks : List (List Char)),
      wrapMeasure chunks < f → wrapMeasure chunks < g →
      wrapGo width f emitted chunks = wrapGo width g emitted chunks := by
  intro f
  induction f with
  | zero => intro g e cs h1 h2; exact absurd h1 (Nat.not_lt_zero _)
  | succ f ih =>
    intro g e cs h1 h2
    cases g with
    | zero => exact absurd h2 (Nat.not_lt_zero _)
    | succ g =>
      cases cs with
      | nil => rfl
      | cons c0 rest0 =>
        have hm := lineStep_measure width e c0 rest0
        show wrapGo width (f + 1) e (c0 :: rest0) = wrapGo width (g + 1) e (c0 :: rest0)
        simp only [wrapGo]
        cases hst : (lineStep width e (c0 :: rest0)).1 with
        | none =>
          simp only [hst]
          exact ih g e _ (by omega) (by omega)
        | some line =>
          simp only [hst]
          rw [ih g true _ (by omega) (by omega)]

theorem wrapGo_line_length (width : Nat) (hw : 1 ≤ width) :
    ∀ (fuel : Nat) (emitted : Bool) (chunks : List (List Char)) (l : List Char),
      l ∈ wrapGo width fuel emitted chunks → l.length ≤ width := by
  intro fuel
  induction fuel with
  | zero => intro e cs l h; simp [wrapGo] at h
  | succ f ih =>
    intro e cs l h
    cases cs with
    | nil => simp [wrapGo] at h
    | cons c0 rest0 =>
      simp only [wrapGo] at h
      cases hst : (lineStep width e (c0 :: rest0)).1 with
      | none =>
        simp only [hst] at h
        exact ih e _ l h
      | some line =>
        simp only [hst] at h
        rcases List.mem_cons.mp h with hl | hl
        · exact hl ▸ lineStep_line_length width hw e _ line hst
        · exact ih true _ l hl

/-- Claim C4 counterexample: an input with nine one-word paragraphs
produces nine uncapped lines, but the wrapper returns only the first
eight - the ninth line `"i"` is silently dropped by the `lines[:8]` cap
at line 150. -/
theorem wrapper_caps_lines_counterexample :
    (wrap_text_lines_uncapped "a\nb\nc\nd\ne\nf\ng\nh\ni" 45).length = 9 ∧
    wrap_text_lines "a\nb\nc\nd\ne\nf\ng\nh\ni" 45 =
      ["a", "b", "c", "d", "e", "f", "g", "h"] ∧
    "i" ∈ wrap_text_lines_uncapped "a\nb\nc\nd\ne\nf\ng\nh\ni" 45 ∧
    "i" ∉ wrap_text_lines "a\nb\nc\nd\ne\nf\ng\nh\ni" 45 := by
  decide

/-- Claim C4 (amended): the wrapper returns the produced lines in order,
but truncated to the first 8: its output is exactly the 8-element prefix
of the uncapped line list, so the number of output lines never exceeds
8, and every returned line is an (order-preserving) prefix of what
uncapped wrapping would produce. -/
theorem wrapper_returns_first_eight_lines (text : String) (maxChars : Nat) :
    wrap_text_lines text maxChars = (wrap_text_lines_uncapped text maxChars).take 8 ∧
    (wrap_text_lines text maxChars).length ≤ 8 ∧
    wrap_text_lines text maxChars <+: wrap_text_lines_uncapped text maxChars ∧
    wrap_text text maxChars = String.intercalate "\n" (wrap_text_lines text maxChars) := by
  refine ⟨rfl, ?_, List.take_prefix _ _, rfl⟩
  simp [wrap_text_lines, List.length_take]

/-- Claim C5 counterexample: a single 50-character word with a 45
character cap is not placed intact on its own line - `textwrap.wrap`
defaults to `break_long_words=True`, so the word is split mid-word into
a 45-character piece and a 5-character piece, and the intact word
appears in no output line. -/
theorem long_word_is_split_counterexample :
    wrap_text_lines (String.mk (List.replicate 50 'a')) 45 =
      [String.mk (List.replicate 45 'a'), String.mk (List.replicate 5 'a')] ∧
    String.mk (List.replicate 50 'a') ∉
      wrap_text_lines (String.mk (List.replicate 50 'a')) 45 := by
  decide

/-- Claim C5 (amended): a word wider than `max_chars_per_line` is broken
mid-word into pieces no wider than the cap rather than placed intact:
for any positive cap, every line returned by the wrapper has length at
most `max_chars_per_line`. -/
theorem wrapper_lines_le_max_chars (text : String) (maxChars : Nat)
    (hw : 1 ≤ maxChars) :
    ∀ s ∈ wrap_text_lines text maxChars, s.length ≤ maxChars := by
  intro s hs
  have hs2 : s ∈ wrap_text_lines_uncapped text maxChars :=
    List.take_subset 8 _ hs
  unfold wrap_text_lines_uncapped at hs2
  rw [List.mem_flatten] at hs2
  obtain ⟨blk, hblk, hsblk⟩ := hs2
  rw [List.mem_map] at hblk
  obtain ⟨p, hp, rfl⟩ := hblk
  by_cases hps : (pyStrip p).isEmpty
  · simp only [hps, if_pos] at hsblk
    have : s = "" := by simpa using hsblk
    subst this
    simp [String.length]
  · simp only [hps, Bool.false_eq_true, if_false] at hsblk
    unfold textwrapWrap at hsblk
    rw [List.mem_map] at hsblk
    obtain ⟨l, hl, rfl⟩ := hsblk
    have hlen := wrapGo_line_length maxChars hw _ _ _ _ hl
    simpa [String.length] using hlen

/-- Witness for the amended C5 at a concrete text and the source's
default cap of 45 characters per line. -/
theorem wrapper_lines_le_max_chars_witness :
    1 ≤ 45 ∧ ∀ s ∈ wrap_text_lines "some tweet text\nwith two paragraphs" 45,
      s.length ≤ 45 :=
  ⟨by norm_num,
   wrapper_lines_le_max_chars "some tweet text\nwith two paragraphs" 45 (by norm_num)⟩

theorem matchLen_pos {pres : List (List Char)} {l : List Char} {k : Nat}
    (h : matchLen pres l = some k) : 0 < k := by
  induction pres with
  | nil => simp [matchLen] at h
  | cons p ps ih =>
    unfold matchLen at h
    split at h
    · rename_i hc
      simp only [Option.some.injEq] at h
      omega
    · exact ih h

theorem matchLen_none_iff {pres : List (List Char)} {l : List Char} :
    matchLen pres l = none ↔
      ∀ p ∈ pres, ¬ (p <+: l ∧ 0 < takeNonSpaceLen (l.drop p.length)) := by
  induction pres with
  | nil => simp [matchLen]
  | cons p ps ih =>
    unfold matchLen
    split
    · rename_i hc
      simp only [List.mem_cons]
      constructor
      · intro h; simp at h
      · intro h
        exact absurd hc (h p (Or.inl rfl))
    · rename_i hc
      simp only [List.mem_cons]
      rw [ih]
      constructor
      · rintro h q (rfl | hq)
        · exact hc
        · exact h q hq
      · intro h q hq
        exact h q (Or.inr hq)

theorem matchLen_some_spec {pres : List (List Char)} {l : List Char} {k : Nat}
    (h : matchLen pres l = some k) :
    ∃ p ∈ pres, p <+: l ∧ 0 < takeNonSpaceLen (l.drop p.length) ∧
      k = p.length + takeNonSpaceLen (l.drop p.length) := by
  induction pres with
  | nil => simp [matchLen] at h
  | cons p ps ih =>
    unfold matchLen at h
    split at h
    · rename_i hc
      simp only [Option.some.injEq] at h
      exact ⟨p, List.mem_cons_self _ _, hc.1, hc.2, h.symm⟩
    · obtain ⟨q, hq, h1, h2, h3⟩ := ih h
      exact ⟨q, List.mem_cons_of_mem _ hq, h1, h2, h3⟩

theorem matchLen_ne_none_of {pres : List (List Char)} {l : List Char} {p : List Char}
    (hp : p ∈ pres) (h1 : p <+: l) (h2 : 0 < takeNonSpaceLen (l.drop p.length)) :
    matchLen pres l ≠ none := by
  intro hn
  exact matchLen_none_iff.mp hn p hp ⟨h1, h2⟩

theorem takeNonSpaceLen_le (l : List Char) : takeNonSpaceLen l ≤ l.length := by
  induction l with
  | nil => simp [takeNonSpaceLen]
  | cons c cs ih =>
    unfold takeNonSpaceLen
    by_cases h : isSpaceChar c
    · simp [h]
    · simp only [h, Bool.false_eq_true, if_false, List.length_cons]
      omega

/-- After the maximal non-space run, the list is exhausted or a
whitespace character follows. -/
theorem drop_takeNonSpaceLen (l : List Char) :
    l.drop (takeNonSpaceLen l) = [] ∨
      ∃ d ds, l.drop (takeNonSpaceLen l) = d :: ds ∧ isSpaceChar d = true := by
  induction l with
  | nil => left; rfl
  | cons c cs ih =>
    by_cases h : isSpaceChar c
    · right
      refine ⟨c, cs, ?_, h⟩
      simp [takeNonSpaceLen, h]
    · have : takeNonSpaceLen (c :: cs) = 1 + takeNonSpaceLen cs := by
        simp [takeNonSpaceLen, h]
      rw [this]
      have hdrop : (c :: cs).drop (1 + takeNonSpaceLen cs) = cs.drop (takeNonSpaceLen cs) := by
        rw [Nat.add_comm]
        rfl
      rw [hdrop]
      exact ih

theorem takeNonSpaceLen_append_space (x : List Char) (sp : Char) (y : List Char)
    (hsp : isSpaceChar sp = true) :
    takeNonSpaceLen (x ++ sp :: y) = takeNonSpaceLen x := by
  induction x with
  | nil => simp [takeNonSpaceLen, hsp]
  | cons c cs ih =>
    by_cases h : isSpaceChar c <;> simp [takeNonSpaceLen, h, ih]

theorem takeNonSpaceLen_le_append (x y : List Char) :
    takeNonSpaceLen x ≤ takeNonSpaceLen (x ++ y) := by
  induction x with
  | nil => simp [takeNonSpaceLen]
  | cons c cs ih =>
    by_cases h : isSpaceChar c
    · simp [takeNonSpaceLen, h]
    · simp only [List.cons_append, takeNonSpaceLen, h, Bool.false_eq_true, if_false]
      exact Nat.add_le_add_left ih 1

theorem subPattern_nil (pres : List (List Char)) : subPattern pres [] = [] := by
  rw [subPattern]

theorem subPattern_cons_some {pres : List (List Char)} {c : Char} {cs : List Char} {k : Nat}
    (h : matchLen pres (c :: cs) = some k) :
    subPattern pres (c :: cs) = subPattern pres ((c :: cs).drop k) := by
  rw [subPattern]
  split
  · rename_i k2 hk2
    rw [h] at hk2
    simp only [Option.some.injEq] at hk2
    rw [hk2]
  · rename_i hk2
    rw [h] at hk2
    simp at hk2

theorem subPattern_cons_none {pres : List (List Char)} {c : Char} {cs : List Char}
    (h : matchLen pres (c :: cs) = none) :
    subPattern pres (c :: cs) = c :: subPattern pres cs := by
  rw [subPattern]
  split
  · rename_i k2 hk2
    rw [h] at hk2
    simp at hk2
  · rfl

theorem matchLen_space_head {pres : List (List Char)} (hv : validPres pres)
    {sp : Char} {rest : List Char} (hsp : isSpaceChar sp = true) :
    matchLen pres (sp :: rest) = none := by
  rw [matchLen_none_iff]
  rintro p hp ⟨hpre, -⟩
  obtain ⟨hne, hns⟩ := hv p hp
  cases p with
  | nil => exact hne rfl
  | cons p0 p1 =>
    rw [List.cons_prefix_cons] at hpre
    have h1 := hns p0 (List.mem_cons_self _ _)
    rw [hpre.1] at h1
    rw [h1] at hsp
    exact Bool.false_ne_true hsp

theorem subPattern_space_head {pres : List (List Char)} (hv : validPres pres)
    {sp : Char} {rest : List Char} (hsp : isSpaceChar sp = true) :
    subPattern pres (sp :: rest) = sp :: subPattern pres rest :=
  subPattern_cons_none (matchLen_space_head hv hsp)

theorem matchLen_seam {pres : List (List Char)} {l : List Char} {k : Nat}
    (h : matchLen pres l = some k) :
    l.drop k = [] ∨ ∃ d ds, l.drop k = d :: ds ∧ isSpaceChar d = true := by
  obtain ⟨p, hp, hpre, hrun, hk⟩ := matchLen_some_spec h
  subst hk
  have heq : l.drop (p.length + takeNonSpaceLen (l.drop p.length))
      = (l.drop p.length).drop (takeNonSpaceLen (l.drop p.length)) := by
    rw [List.drop_drop, Nat.add_comm]
  rw [heq]
  exact drop_takeNonSpaceLen (l.drop p.length)

/-- Occurrence transfer: a pattern occurrence (literal prefix of
non-space characters followed by a non-space character) at the head of a
substituted text was already present at the head of the original text. -/
theorem subPattern_occurrence_transfer {pres : List (List Char)} (hv : validPres pres) :
    ∀ (n : Nat) (l q : List Char), l.length = n →
      (∀ c ∈ q, isSpaceChar c = false) →
      q <+: subPattern pres l →
      0 < takeNonSpaceLen ((subPattern pres l).drop q.length) →
      q <+: l ∧ 0 < takeNonSpaceLen (l.drop q.length) := by
  intro n
  induction n using Nat.strong_induction_on with
  | _ n ih =>
    intro l q hlen hq hpre hrun
    cases l with
    | nil =>
      rw [subPattern_nil] at hpre hrun
      have hq0 : q = [] := List.prefix_nil.mp hpre
      subst hq0
      simp [takeNonSpaceLen] at hrun
    | cons c cs =>
      cases hm : matchLen pres (c :: cs) with
      | some k =>
        rw [subPattern_cons_some hm] at hpre hrun
        rcases matchLen_seam hm with hseam | ⟨d, ds, hseam, hd⟩
        · rw [hseam] at hpre hrun
          rw [subPattern_nil] at hpre hrun
          have hq0 : q = [] := List.prefix_nil.mp hpre
          subst hq0
          simp [takeNonSpaceLen] at hrun
        · rw [hseam, subPattern_space_head hv hd] at hpre hrun
          cases q with
          | nil =>
            simp only [List.length_nil, List.drop_zero] at hrun
            simp [takeNonSpaceLen, hd] at hrun
          | cons q0 q1 =>
            rw [List.cons_prefix_cons] at hpre
            have h1 := hq q0 (List.mem_cons_self _ _)
            rw [hpre.1] at h1
            rw [h1] at hd
            exact absurd hd Bool.false_ne_true
      | none =>
        rw [subPattern_cons_none hm] at hpre hrun
        cases q with
        | nil =>
          refine ⟨List.nil_prefix, ?_⟩
          simp only [List.length_nil, List.drop_zero] at hrun ⊢
          by_cases hc : isSpaceChar c
          · simp [takeNonSpaceLen, hc] at hrun
          · simp [takeNonSpaceLen, hc]
        | cons q0 q1 =>
          rw [List.cons_prefix_cons] at hpre
          obtain ⟨hq0, hq1⟩ := hpre
          have hlen2 : cs.length < n := by
            subst hlen
            simp
          have hdrop1 : (c :: subPattern pres cs).drop (q0 :: q1).length
              = (subPattern pres cs).drop q1.length := by simp
          rw [hdrop1] at hrun
          have hqsub : ∀ x ∈ q1, isSpaceChar x = false :=
            fun x hx => hq x (List.mem_cons_of_mem _ hx)
          obtain ⟨ha, hb⟩ := ih cs.length hlen2 cs q1 rfl hqsub hq1 hrun
          refine ⟨List.cons_prefix_cons.mpr ⟨hq0, ha⟩, ?_⟩
          simpa using hb

/-- `re.sub` removes every occurrence: no match survives in its output. -/
theorem noMatchB_subPattern {pres : List (List Char)} (hv : validPres pres)
    (l : List Char) : noMatchB pres (subPattern pres l) = true := by
  suffices h : ∀ (n : Nat) (m : List Char), m.length = n →
      noMatchB pres (subPattern pres m) = true from h l.length l rfl
  intro n
  induction n using Nat.strong_induction_on with
  | _ n ih =>
    intro m hlen
    cases m with
    | nil => rw [subPattern_nil]; rfl
    | cons c cs =>
      cases hm : matchLen pres (c :: cs) with
      | some k =>
        rw [subPattern_cons_some hm]
        have hk := matchLen_pos hm
        refine ih ((c :: cs).drop k).length ?_ _ rfl
        subst hlen
        simp only [List.length_drop, List.length_cons]
        omega
      | none =>
        rw [subPattern_cons_none hm]
        rw [noMatchB]
        rw [Bool.and_eq_true]
        constructor
        · cases hm2 : matchLen pres (c :: subPattern pres cs) with
          | none => rfl
          | some k2 =>
            exfalso
            obtain ⟨p, hp, hpre, hrun, -⟩ := matchLen_some_spec hm2
            obtain ⟨hne, hns⟩ := hv p hp
            cases p with
            | nil => exact hne rfl
            | cons p0 p1 =>
              rw [List.cons_prefix_cons] at hpre
              have hd : (c :: subPattern pres cs).drop (p0 :: p1).length
                  = (subPattern pres cs).drop p1.length := by simp
              rw [hd] at hrun
              obtain ⟨ha, hb⟩ := subPattern_occurrence_transfer hv cs.length cs p1 rfl
                (fun x hx => hns x (List.mem_cons_of_mem _ hx)) hpre.2 hrun
              have hpre2 : (p0 :: p1) <+: (c :: cs) :=
                List.cons_prefix_cons.mpr ⟨hpre.1, ha⟩
              have hrun2 : 0 < takeNonSpaceLen ((c :: cs).drop (p0 :: p1).length) := by
                simpa using hb
              exact matchLen_ne_none_of hp hpre2 hrun2 hm
        · refine ih cs.length ?_ cs rfl
          subst hlen
          simp

theorem noMatchB_drop {P : List (List Char)} :
    ∀ (k : Nat) (l : List Char), noMatchB P l = true → noMatchB P (l.drop k) = true := by
  intro k
  induction k with
  | zero => intro l h; simpa using h
  | succ k2 ih =>
    intro l h
    cases l with
    | nil => simpa using h
    | cons c cs =>
      rw [List.drop_succ_cons]
      simp only [noMatchB, Bool.and_eq_true] at h
      exact ih cs h.2

/-- A later substitution with a different pattern cannot re-create an
occurrence of an already-removed pattern. -/
theorem noMatchB_preserved_subPattern {P Q : List (List Char)}
    (hvP : validPres P) (hvQ : validPres Q) (l : List Char)
    (hl : noMatchB P l = true) : noMatchB P (subPattern Q l) = true := by
  suffices h : ∀ (n : Nat) (m : List Char), m.length = n →
      noMatchB P m = true → noMatchB P (subPattern Q m) = true from h l.length l rfl hl
  intro n
  induction n using Nat.strong_induction_on with
  | _ n ih =>
    intro m hlen hm
    cases m with
    | nil => rw [subPattern_nil]; rfl
    | cons c cs =>
      rw [noMatchB, Bool.and_eq_true] at hm
      cases hq : matchLen Q (c :: cs) with
      | some k =>
        rw [subPattern_cons_some hq]
        have hk := matchLen_pos hq
        have hmfull : noMatchB P (c :: cs) = true := by
          simp only [noMatchB, Bool.and_eq_true]
          exact hm
        have hdropm : noMatchB P ((c :: cs).drop k) = true :=
          noMatchB_drop k _ hmfull
        refine ih ((c :: cs).drop k).length ?_ _ rfl hdropm
        subst hlen
        simp only [List.length_drop, List.length_cons]
        omega
      | none =>
        rw [subPattern_cons_none hq]
        rw [noMatchB, Bool.and_eq_true]
        constructor
        · cases hm2 : matchLen P (c :: subPattern Q cs) with
          | none => rfl
          | some k2 =>
            exfalso
            obtain ⟨p, hp, hpre, hrun, -⟩ := matchLen_some_spec hm2
            obtain ⟨hne, hns⟩ := hvP p hp
            cases p with
            | nil => exact hne rfl
            | cons p0 p1 =>
              rw [List.cons_prefix_cons] at hpre
              have hd : (c :: subPattern Q cs).drop (p0 :: p1).length
                  = (subPattern Q cs).drop p1.length := by simp
              rw [hd] at hrun
              obtain ⟨ha, hb⟩ := subPattern_occurrence_transfer hvQ cs.length cs p1 rfl
                (fun x hx => hns x (List.mem_cons_of_mem _ hx)) hpre.2 hrun
              have hpre2 : (p0 :: p1) <+: (c :: cs) :=
                List.cons_prefix_cons.mpr ⟨hpre.1, ha⟩
              have hrun2 : 0 < takeNonSpaceLen ((c :: cs).drop (p0 :: p1).length) := by
                simpa using hb
              exact matchLen_ne_none_of hp hpre2 hrun2
                (Option.isNone_iff_eq_none.mp hm.1)
        · refine ih cs.length ?_ cs rfl hm.2
          subst hlen
          simp

theorem matchLen_append_not_none {P : List (List Char)} {a t : List Char}
    (h : matchLen P a ≠ none) : matchLen P (a ++ t) ≠ none := by
  cases hma : matchLen P a with
  | none => exact absurd hma h
  | some k =>
    obtain ⟨p, hp, hpre, hrun, -⟩ := matchLen_some_spec hma
    apply matchLen_ne_none_of hp (hpre.trans (List.prefix_append a t))
    have hplen : p.length ≤ a.length := hpre.length_le
    have hdrop : (a ++ t).drop p.length = a.drop p.length ++ t :=
      List.drop_append_of_le_length hplen
    rw [hdrop]
    exact lt_of_lt_of_le hrun (takeNonSpaceLen_le_append _ _)

theorem noMatchB_append_left {P : List (List Char)} :
    ∀ (s t : List Char), noMatchB P (s ++ t) = true → noMatchB P s = true := by
  intro s
  induction s with
  | nil => intro t h; rfl
  | cons c xs ih =>
    intro t h
    simp only [List.cons_append, noMatchB, Bool.and_eq_true] at h ⊢
    refine ⟨?_, ih t h.2⟩
    cases hm : matchLen P (c :: xs) with
    | none => rfl
    | some k =>
      exfalso
      have hne : matchLen P ((c :: xs) ++ t) ≠ none :=
        matchLen_append_not_none (by simp [hm])
      rw [List.cons_append] at hne
      exact hne (Option.isNone_iff_eq_none.mp h.1)

theorem noMatchB_append_right {P : List (List Char)} :
    ∀ (s t : List Char), noMatchB P (s ++ t) = true → noMatchB P t = true := by
  intro s
  induction s with
  | nil => intro t h; simpa using h
  | cons c xs ih =>
    intro t h
    simp only [List.cons_append, noMatchB, Bool.and_eq_true] at h
    exact ih t h.2

theorem noMatchB_of_prefix {P : List (List Char)} {s l : List Char}
    (hp : s <+: l) (h : noMatchB P l = true) : noMatchB P s = true := by
  obtain ⟨t, rfl⟩ := hp
  exact noMatchB_append_left s t h

theorem noMatchB_of_suffix {P : List (List Char)} {s l : List Char}
    (hp : s <:+ l) (h : noMatchB P l = true) : noMatchB P s = true := by
  obtain ⟨t, rfl⟩ := hp
  exact noMatchB_append_right t s h

theorem noMatchB_cons_space {P : List (List Char)} (hv : validPres P)
    {sp : Char} {y : List Char} (hsp : isSpaceChar sp = true)
    (hy : noMatchB P y = true) : noMatchB P (sp :: y) = true := by
  simp only [noMatchB, Bool.and_eq_true]
  exact ⟨by rw [matchLen_space_head hv hsp]; rfl, hy⟩

theorem matchLen_append_space_none {P : List (List Char)} (hv : validPres P)
    {a : List Char} {sp : Char} {y : List Char}
    (hsp : isSpaceChar sp = true) (ha : matchLen P a = none) :
    matchLen P (a ++ sp :: y) = none := by
  rw [matchLen_none_iff]
  rintro p hp ⟨hpre, hrun⟩
  obtain ⟨hne, hns⟩ := hv p hp
  by_cases hlen : p.length ≤ a.length
  · have hpre2 : p <+: a := by
      rw [List.prefix_iff_eq_take] at hpre
      rw [List.take_append_eq_append_take] at hpre
      have h0 : p.length - a.length = 0 := by omega
      rw [h0] at hpre
      rw [List.prefix_iff_eq_take]
      simpa using hpre
    have hrun2 : 0 < takeNonSpaceLen (a.drop p.length) := by
      rw [List.drop_append_of_le_length hlen,
        takeNonSpaceLen_append_space _ _ _ hsp] at hrun
      exact hrun
    exact matchLen_ne_none_of hp hpre2 hrun2 ha
  · have hsp_mem : sp ∈ p := by
      rw [List.prefix_iff_eq_take, List.take_append_eq_append_take] at hpre
      rw [hpre]
      refine List.mem_append_right _ ?_
      cases hplen : p.length - a.length with
      | zero => omega
      | succ m =>
        rw [List.take_succ_cons]
        exact List.mem_cons_self _ _
    have hfalse := hns sp hsp_mem
    rw [hfalse] at hsp
    exact Bool.false_ne_true hsp

theorem noMatchB_append_space {P : List (List Char)} (hv : validPres P) :
    ∀ (x : List Char) {sp : Char} {y : List Char}, isSpaceChar sp = true →
      noMatchB P x = true → noMatchB P y = true →
      noMatchB P (x ++ sp :: y) = true := by
  intro x
  induction x with
  | nil =>
    intro sp y hsp hx hy
    exact noMatchB_cons_space hv hsp hy
  | cons c xs ih =>
    intro sp y hsp hx hy
    simp only [List.cons_append, noMatchB, Bool.and_eq_true] at hx ⊢
    refine ⟨?_, ih hsp hx.2 hy⟩
    have hnone : matchLen P ((c :: xs) ++ sp :: y) = none :=
      matchLen_append_space_none hv hsp (Option.isNone_iff_eq_none.mp hx.1)
    show (matchLen P ((c :: xs) ++ sp :: y)).isNone = true
    rw [hnone]
    rfl

theorem splitNl_ne_nil : ∀ (l : List Char), splitNl l ≠ [] := by
  intro l
  induction l with
  | nil => simp [splitNl]
  | cons c cs ih =>
    simp only [splitNl]
    by_cases h : c = '\n'
    · simp [h]
    · simp only [if_neg h]
      cases splitNl cs with
      | nil => simp
      | cons r0 rt => simp

theorem splitNl_head_prefix :
    ∀ (l : List Char) (h0 : List Char) (t0 : List (List Char)),
      splitNl l = h0 :: t0 → h0 <+: l := by
  intro l
  induction l with
  | nil =>
    intro h0 t0 h
    simp only [splitNl, List.cons.injEq] at h
    rw [← h.1]
  | cons c cs ih =>
    intro h0 t0 h
    simp only [splitNl] at h
    by_cases hc : c = '\n'
    · rw [if_pos hc] at h
      have h1 : h0 = [] := ((List.cons.injEq _ _ _ _).mp h).1.symm
      rw [h1]
      exact List.nil_prefix
    · rw [if_neg hc] at h
      cases hr : splitNl cs with
      | nil => exact absurd hr (splitNl_ne_nil cs)
      | cons r0 rt =>
        rw [hr] at h
        have h1 : h0 = c :: r0 := ((List.cons.injEq _ _ _ _).mp h).1.symm
        rw [h1]
        exact List.cons_prefix_cons.mpr ⟨rfl, ih r0 rt hr⟩

theorem noMatchB_splitNl {P : List (List Char)} :
    ∀ (l : List Char), noMatchB P l = true →
      ∀ seg ∈ splitNl l, noMatchB P seg = true := by
  intro l
  induction l with
  | nil =>
    intro h seg hseg
    simp only [splitNl, List.mem_singleton] at hseg
    subst hseg
    rfl
  | cons c cs ih =>
    intro h seg hseg
    have htail : noMatchB P cs = true := by
      simp only [noMatchB, Bool.and_eq_true] at h
      exact h.2
    simp only [splitNl] at hseg
    by_cases hc : c = '\n'
    · rw [if_pos hc] at hseg
      rcases List.mem_cons.mp hseg with rfl | hs2
      · rfl
      · exact ih htail seg hs2
    · rw [if_neg hc] at hseg
      cases hr : splitNl cs with
      | nil => exact absurd hr (splitNl_ne_nil cs)
      | cons r0 rt =>
        rw [hr] at hseg
        rcases List.mem_cons.mp hseg with rfl | hs2
        · have hpre : r0 <+: cs := splitNl_head_prefix cs r0 rt hr
          exact noMatchB_of_prefix (List.cons_prefix_cons.mpr ⟨rfl, hpre⟩) h
        · refine ih htail seg ?_
          rw [hr]
          exact List.mem_cons_of_mem r0 hs2

theorem pyStrip_prefix_of_dropWhile (l : List Char) :
    pyStrip l <+: l.dropWhile isSpaceChar := by
  unfold pyStrip
  have hs : (l.dropWhile isSpaceChar).reverse.dropWhile isSpaceChar
      <:+ (l.dropWhile isSpaceChar).reverse := List.dropWhile_suffix _
  have := List.reverse_prefix.mpr hs
  simpa using this

theorem noMatchB_pyStrip {P : List (List Char)} (l : List Char)
    (h : noMatchB P l = true) : noMatchB P (pyStrip l) = true := by
  have h1 : noMatchB P (l.dropWhile isSpaceChar) = true :=
    noMatchB_of_suffix (List.dropWhile_suffix _) h
  exact noMatchB_of_prefix (pyStrip_prefix_of_dropWhile l) h1

theorem dropWhile_head_not (p : Char → Bool) :
    ∀ (l : List Char), l.dropWhile p = [] ∨
      ∃ d ds, l.dropWhile p = d :: ds ∧ p d = false := by
  intro l
  induction l with
  | nil => left; rfl
  | cons c cs ih =>
    by_cases h : p c
    · simpa [List.dropWhile_cons, h] using ih
    · right
      refine ⟨c, cs, ?_, ?_⟩
      · simp [List.dropWhile_cons, h]
      · simpa using h

theorem dropWhile_eq_self_of_head (p : Char → Bool) (l : List Char)
    (h : l = [] ∨ ∃ d ds, l = d :: ds ∧ p d = false) : l.dropWhile p = l := by
  rcases h with rfl | ⟨d, ds, rfl, hd⟩
  · rfl
  · simp [List.dropWhile_cons, hd]

/-- The head of a stripped list is never whitespace. -/
theorem pyStrip_head_not_space (l : List Char) :
    pyStrip l = [] ∨ ∃ d ds, pyStrip l = d :: ds ∧ isSpaceChar d = false := by
  cases hres : pyStrip l with
  | nil => left; rfl
  | cons d ds =>
    right
    refine ⟨d, ds, rfl, ?_⟩
    have hpre : pyStrip l <+: l.dropWhile isSpaceChar := pyStrip_prefix_of_dropWhile l
    rw [hres] at hpre
    obtain ⟨t, ht⟩ := hpre
    rcases dropWhile_head_not isSpaceChar l with hnil | ⟨d2, ds2, hdw, hd2⟩
    · rw [hnil] at ht
      simp at ht
    · rw [hdw] at ht
      have : d = d2 := by
        have := congrArg List.head? ht
        simpa using this
      rw [this]
      exact hd2

/-- The last element of a stripped list is never whitespace: its reverse
has a non-whitespace head. -/
theorem pyStrip_reverse_head_not_space (l : List Char) :
    (pyStrip l).reverse = [] ∨
      ∃ d ds, (pyStrip l).reverse = d :: ds ∧ isSpaceChar d = false := by
  have hrev : (pyStrip l).reverse
      = (l.dropWhile isSpaceChar).reverse.dropWhile isSpaceChar := by
    unfold pyStrip
    simp
  rw [hrev]
  exact dropWhile_head_not isSpaceChar _

/-- Python `strip()` is idempotent. -/
theorem pyStrip_idem (l : List Char) : pyStrip (pyStrip l) = pyStrip l := by
  have h1 : (pyStrip l).dropWhile isSpaceChar = pyStrip l :=
    dropWhile_eq_self_of_head _ _ (pyStrip_head_not_space l)
  have h2 : (pyStrip l).reverse.dropWhile isSpaceChar = (pyStrip l).reverse :=
    dropWhile_eq_self_of_head _ _ (pyStrip_reverse_head_not_space l)
  show ((((pyStrip l).dropWhile isSpaceChar).reverse.dropWhile isSpaceChar)).reverse
      = pyStrip l
  rw [h1, h2]
  simp

theorem noMatchB_joinNl {P : List (List Char)} (hv : validPres P) :
    ∀ (lines : List (List Char)),
      (∀ seg ∈ lines, noMatchB P seg = true) → noMatchB P (joinNl lines) = true := by
  intro lines
  induction lines with
  | nil => intro _; rfl
  | cons l rest ih =>
    intro h
    cases rest with
    | nil => exact h l (List.mem_singleton.mpr rfl)
    | cons r2 rt =>
      show noMatchB P (l ++ '\n' :: joinNl (r2 :: rt)) = true
      refine noMatchB_append_space hv l (by decide) (h l (List.mem_cons_self _ _)) ?_
      exact ih (fun seg hs => h seg (List.mem_cons_of_mem _ hs))

theorem httpPrefixes_valid : validPres httpPrefixes := by
  unfold validPres httpPrefixes
  decide

theorem picPrefixes_valid : validPres picPrefixes := by
  unfold validPres picPrefixes
  decide

/-- Claim C10: the text-cleaning step removes every `http(s)://` URL
match and every `pic.twitter.com/` token match, strips each line, and
drops all blank lines entirely: every line handed onward is non-empty
and stripped (no blank line survives, so blank-paragraph spacing is
never preserved), and the cleaned text contains no occurrence of either
pattern at any position. -/
theorem clean_text_no_blank_lines_and_no_urls (text : String) :
    (∀ l ∈ cleanLines text, l ≠ [] ∧ pyStrip l = l) ∧
    noMatchB httpPrefixes (clean_tweet_text text).data = true ∧
    noMatchB picPrefixes (clean_tweet_text text).data = true ∧
    clean_tweet_text text = String.mk (joinNl (cleanLines text)) := by
  have hvh : validPres httpPrefixes := httpPrefixes_valid
  have hvp : validPres picPrefixes := picPrefixes_valid
  have hcl : cleanLines text =
      ((splitNl (pyStrip (subPattern picPrefixes
        (subPattern httpPrefixes text.data)))).map pyStrip).filter
          (fun l => !l.isEmpty) := rfl
  have n1 : noMatchB httpPrefixes (subPattern httpPrefixes text.data) = true :=
    noMatchB_subPattern hvh text.data
  have n2 : noMatchB httpPrefixes
      (subPattern picPrefixes (subPattern httpPrefixes text.data)) = true :=
    noMatchB_preserved_subPattern hvh hvp _ n1
  have n3 : noMatchB picPrefixes
      (subPattern picPrefixes (subPattern httpPrefixes text.data)) = true :=
    noMatchB_subPattern hvp _
  have n4 : noMatchB httpPrefixes
      (pyStrip (subPattern picPrefixes (subPattern httpPrefixes text.data))) = true :=
    noMatchB_pyStrip _ n2
  have n5 : noMatchB picPrefixes
      (pyStrip (subPattern picPrefixes (subPattern httpPrefixes text.data))) = true :=
    noMatchB_pyStrip _ n3
  have hseg : ∀ seg ∈ cleanLines text,
      noMatchB httpPrefixes seg = true ∧ noMatchB picPrefixes seg = true := by
    intro seg hs
    rw [hcl, List.mem_filter] at hs
    obtain ⟨hmem, -⟩ := hs
    rw [List.mem_map] at hmem
    obtain ⟨p, hp, rfl⟩ := hmem
    exact ⟨noMatchB_pyStrip _ (noMatchB_splitNl _ n4 p hp),
      noMatchB_pyStrip _ (noMatchB_splitNl _ n5 p hp)⟩
  have hdata : (clean_tweet_text text).data = joinNl (cleanLines text) := rfl
  refine ⟨?_, ?_, ?_, rfl⟩
  · intro l hl
    rw [hcl, List.mem_filter] at hl
    obtain ⟨hmem, hne⟩ := hl
    rw [List.mem_map] at hmem
    obtain ⟨p, hp, rfl⟩ := hmem
    refine ⟨?_, pyStrip_idem p⟩
    intro hcontra
    rw [hcontra] at hne
    simp at hne
  · rw [hdata]
    exact noMatchB_joinNl hvh _ (fun seg hs => (hseg seg hs).1)
  · rw [hdata]
    exact noMatchB_joinNl hvp _ (fun seg hs => (hseg seg hs).2)

/-- Witness for C10 at a concrete tweet text containing a URL, a
`pic.twitter.com` token and a blank paragraph. -/
theorem clean_text_no_blank_lines_and_no_urls_witness :
    (∀ l ∈ cleanLines "look https://t.co/abc\n\n  pic.twitter.com/xyz done  ",
      l ≠ [] ∧ pyStrip l = l) ∧
    noMatchB httpPrefixes
      (clean_tweet_text "look https://t.co/abc\n\n  pic.twitter.com/xyz done  ").data = true ∧
    noMatchB picPrefixes
      (clean_tweet_text "look https://t.co/abc\n\n  pic.twitter.com/xyz done  ").data = true ∧
    clean_tweet_text "look https://t.co/abc\n\n  pic.twitter.com/xyz done  " =
      String.mk (joinNl (cleanLines "look https://t.co/abc\n\n  pic.twitter.com/xyz done  ")) :=
  clean_text_no_blank_lines_and_no_urls "look https://t.co/abc\n\n  pic.twitter.com/xyz done  "

end App
